import Mathlib

/-!
Verification of `process_therapy_conversations.py`.

This file gives a shallow embedding in Lean 4 of the algorithmic core of the
script: the greedy chunker `split_into_chunks`, the conversation-tree reducer
`extract_messages_from_mapping`, the per-conversation condenser
`clean_conversation`, and the whitespace normalizer used by
`normalize_whitespace`.  Each definition is translated directly from the
Python source; theorems below settle the specification claims.
-/

namespace Therapy

/-! ## Chunker (`split_into_chunks`, source lines 447-468)

The Python loop keeps an accumulator `(chunks, current_chunk, current_size)`.
For each record `conv` it computes a cost (`len(json.dumps(conv)) // 4` in the
source; here an arbitrary `cost` function, matching the spec's `sizeOf`
parameter) and either closes the current group or appends to it.  We embed the
loop body as `chunkStep` and the whole loop (including the final flush) as
`split_into_chunks`. -/

/-- Emptiness of a list is decidable without decidable equality on the
elements (used for the Python truthiness test `if current_chunk:`). -/
instance decListEqNil {α : Type} (l : List α) : Decidable (l = []) :=
  match l with
  | [] => isTrue rfl
  | _ :: _ => isFalse (by simp)

/-- One iteration of the chunking loop (source lines 451-464).
The accumulator is `(chunks, current_chunk, current_size)`. -/
def chunkStep {α : Type} (tokens_per_chunk : Nat) (cost : α → Nat)
    (acc : List (List α) × List α × Nat) (conv : α) : List (List α) × List α × Nat :=
  let conv_tokens := cost conv
  if acc.2.2 + conv_tokens > tokens_per_chunk ∧ acc.2.1 ≠ [] then
    (acc.1 ++ [acc.2.1], [conv], conv_tokens)
  else
    (acc.1, acc.2.1 ++ [conv], acc.2.2 + conv_tokens)

/-- The chunking loop of `split_into_chunks` (source lines 447-468): fold the
records through `chunkStep` starting from an empty accumulator, then append
the final non-empty current group. -/
def split_into_chunks {α : Type} (data : List α) (tokens_per_chunk : Nat)
    (cost : α → Nat) : List (List α) :=
  let r := data.foldl (chunkStep tokens_per_chunk cost) ([], [], 0)
  if r.2.1 ≠ [] then r.1 ++ [r.2.1] else r.1

/-- Finalization step (source lines 466-468), exposed for the proofs. -/
def chunkFinalize {α : Type} (acc : List (List α) × List α × Nat) : List (List α) :=
  if acc.2.1 ≠ [] then acc.1 ++ [acc.2.1] else acc.1

theorem split_into_chunks_eq_finalize {α : Type} (data : List α) (cap : Nat)
    (cost : α → Nat) :
    split_into_chunks data cap cost = chunkFinalize (data.foldl (chunkStep cap cost) ([], [], 0)) := rfl

/-- Flatten invariant of the fold: concatenating the closed chunks, the current
group and the unprocessed records is invariant under the loop. -/
theorem chunk_fold_flatten {α : Type} (cap : Nat) (cost : α → Nat) :
    ∀ (data : List α) (chunks : List (List α)) (current : List α) (size : Nat),
      (chunkFinalize (data.foldl (chunkStep cap cost) (chunks, current, size))).flatten
        = chunks.flatten ++ current ++ data := by
  intro data
  induction data with
  | nil =>
    intro chunks current size
    by_cases h : current = [] <;> simp [chunkFinalize, h]
  | cons a rest ih =>
    intro chunks current size
    rw [List.foldl_cons]
    by_cases h : size + cost a > cap ∧ current ≠ []
    · rw [show chunkStep cap cost (chunks, current, size) a
            = (chunks ++ [current], [a], cost a) by simp [chunkStep, h]]
      rw [ih]
      simp
    · rw [show chunkStep cap cost (chunks, current, size) a
            = (chunks, current ++ [a], size + cost a) by simp [chunkStep, h]]
      rw [ih]
      simp

/-- Non-emptiness invariant of the fold: if every already-closed chunk is
non-empty, every chunk of the final result is non-empty. -/
theorem chunk_fold_nonempty {α : Type} (cap : Nat) (cost : α → Nat) :
    ∀ (data : List α) (chunks : List (List α)) (current : List α) (size : Nat),
      (∀ g ∈ chunks, g ≠ []) →
      ∀ g ∈ chunkFinalize (data.foldl (chunkStep cap cost) (chunks, current, size)), g ≠ [] := by
  intro data
  induction data with
  | nil =>
    intro chunks current size hch g hg
    by_cases h : current = []
    · simp [chunkFinalize, h] at hg
      exact hch g hg
    · simp [chunkFinalize, h] at hg
      rcases hg with hg | hg
      · exact hch g hg
      · rw [hg]; exact h
  | cons a rest ih =>
    intro chunks current size hch
    rw [List.foldl_cons]
    by_cases h : size + cost a > cap ∧ current ≠ []
    · rw [show chunkStep cap cost (chunks, current, size) a
            = (chunks ++ [current], [a], cost a) by simp [chunkStep, h]]
      apply ih
      intro g hg
      rcases List.mem_append.1 hg with hg | hg
      · exact hch g hg
      · rw [List.mem_singleton.1 hg]; exact h.2
    · rw [show chunkStep cap cost (chunks, current, size) a
            = (chunks, current ++ [a], size + cost a) by simp [chunkStep, h]]
      exact ih _ _ _ hch

/-- C1: Packer totality and order preservation.  For every ordered record
sequence and every positive capacity, concatenating the groups returned by
`split_into_chunks`, in order, reproduces the exact input sequence, and every
returned group is non-empty. -/
theorem packer_totality {α : Type} (data : List α) (cap : Nat) (cost : α → Nat)
    (hcap : 0 < cap) :
    (split_into_chunks data cap cost).flatten = data
      ∧ ∀ g ∈ split_into_chunks data cap cost, g ≠ [] := by
  constructor
  · rw [split_into_chunks_eq_finalize, chunk_fold_flatten]
    simp
  · intro g hg
    rw [split_into_chunks_eq_finalize] at hg
    exact chunk_fold_nonempty cap cost data [] [] 0 (by simp) g hg

/-- Witness for C1 at a concrete input: records of costs 7, 9, 2 with
capacity 10. -/
theorem packer_totality_witness :
    (split_into_chunks [(1, 7), (2, 9), (3, 2)] 10 Prod.snd).flatten = [(1, 7), (2, 9), (3, 2)]
      ∧ ∀ g ∈ split_into_chunks [(1, 7), (2, 9), (3, 2)] 10 Prod.snd, g ≠ [] :=
  packer_totality [(1, 7), (2, 9), (3, 2)] 10 Prod.snd (by decide)

/-- C3: Packer greedy boundary rule.  A record closes the current group and
starts a new singleton group exactly when the current group is non-empty and
the accumulated cost plus the record's cost exceeds the capacity; otherwise it
is appended to the current group.  For costs `[10,10,10]` with capacity 15 the
packer yields three singleton groups; for costs `[5,5,5]` with capacity 15 it
yields one group of all three records. -/
theorem packer_boundary_rule :
    (∀ (cap : Nat) (cost : Nat × Nat → Nat) (chunks : List (List (Nat × Nat)))
        (current : List (Nat × Nat)) (size : Nat) (conv : Nat × Nat),
      chunkStep cap cost (chunks, current, size) conv
        = if current ≠ [] ∧ size + cost conv > cap
            then (chunks ++ [current], [conv], cost conv)
            else (chunks, current ++ [conv], size + cost conv))
    ∧ split_into_chunks [(1, 10), (2, 10), (3, 10)] 15 Prod.snd
        = [[(1, 10)], [(2, 10)], [(3, 10)]]
    ∧ split_into_chunks [(1, 5), (2, 5), (3, 5)] 15 Prod.snd
        = [[(1, 5), (2, 5), (3, 5)]] := by
  refine ⟨?_, by decide, by decide⟩
  intro cap cost chunks current size conv
  by_cases h1 : current = [] <;> by_cases h2 : size + cost conv > cap <;>
    simp [chunkStep, h1, h2]

/-- Chunks-prefix morphism: the fold only ever appends to the closed-chunks
component, so already-closed chunks pass through unchanged. -/
theorem chunk_fold_append {α : Type} (cap : Nat) (cost : α → Nat) :
    ∀ (data : List α) (chunks : List (List α)) (current : List α) (size : Nat),
      data.foldl (chunkStep cap cost) (chunks, current, size)
        = (chunks ++ (data.foldl (chunkStep cap cost) ([], current, size)).1,
           (data.foldl (chunkStep cap cost) ([], current, size)).2) := by
  intro data
  induction data with
  | nil => intro chunks current size; simp
  | cons a rest ih =>
    intro chunks current size
    rw [List.foldl_cons, List.foldl_cons]
    by_cases h : size + cost a > cap ∧ current ≠ []
    · rw [show chunkStep cap cost (chunks, current, size) a
            = (chunks ++ [current], [a], cost a) by simp [chunkStep, h],
          show chunkStep cap cost ([], current, size) a
            = ([current], [a], cost a) by simp [chunkStep, h]]
      rw [ih (chunks ++ [current]), ih [current]]
      simp
    · rw [show chunkStep cap cost (chunks, current, size) a
            = (chunks, current ++ [a], size + cost a) by simp [chunkStep, h],
          show chunkStep cap cost ([], current, size) a
            = ([], current ++ [a], size + cost a) by simp [chunkStep, h]]
      exact ih chunks _ _

/-- C7: Oversized record handling.  A record whose own cost exceeds the
capacity and which arrives at an empty current group (i.e. at the head of the
record sequence, the only point where the current group is empty) is placed
alone in its own group, never dropped or split: `split_into_chunks` on
`r :: data` yields `[r]` as the first group followed by the chunking of the
remaining records; in particular a single such record yields exactly one group
containing it alone. -/
theorem packer_oversized {α : Type} (r : α) (data : List α) (cap : Nat)
    (cost : α → Nat) (h : cap < cost r) :
    split_into_chunks (r :: data) cap cost = [r] :: split_into_chunks data cap cost
      ∧ split_into_chunks [r] cap cost = [[r]] := by
  have hsingle : ∀ d : List α,
      split_into_chunks (r :: d) cap cost = [r] :: split_into_chunks d cap cost := by
    intro d
    rw [split_into_chunks_eq_finalize, split_into_chunks_eq_finalize, List.foldl_cons]
    rw [show chunkStep cap cost ([], [], 0) r = ([], [r], cost r) by simp [chunkStep]]
    cases d with
    | nil => simp [chunkFinalize]
    | cons b rest =>
      have hlt : cap < cost r + cost b := by omega
      rw [List.foldl_cons, List.foldl_cons]
      rw [show chunkStep cap cost ([], [r], cost r) b = ([[r]], [b], cost b) by
            simp [chunkStep, hlt]]
      rw [show chunkStep cap cost ([], [], 0) b = ([], [b], cost b) by simp [chunkStep]]
      rw [chunk_fold_append cap cost rest [[r]] [b] (cost b)]
      unfold chunkFinalize
      by_cases hc : (List.foldl (chunkStep cap cost) ([], [b], cost b) rest).2.1 = [] <;>
        simp [hc]
  exact ⟨hsingle data, by rw [hsingle []]; rfl⟩

/-- Witness for C7: a single record of cost 100 with capacity 15 is kept,
alone in one group. -/
theorem packer_oversized_witness :
    split_into_chunks [(1, 100)] 15 (Prod.snd : Nat × Nat → Nat)
        = [(1, 100)] :: split_into_chunks [] 15 Prod.snd
      ∧ split_into_chunks [(1, 100)] 15 Prod.snd = [[(1, 100)]] :=
  packer_oversized (1, 100) [] 15 Prod.snd (by decide)

/-! ## Conversation-tree reducer (`extract_messages_from_mapping`, source lines 183-269)

The data model follows the JSON shapes the Python code reads:

* a `Part` is either a string or some non-string JSON structure; for the
  latter only its Python truthiness and its `str(...)` rendering matter to the
  code, so the embedding records exactly those two attributes;
* `Content` records the `parts` list (`none` when the `parts` key is absent,
  matching `content.get('parts', [])`) and whether the special keys
  `user_profile` / `user_instructions` are present;
* `Message` records `author.role` (absent roles are `none`), the content and
  the truthiness of `metadata.is_visually_hidden_from_conversation`;
* a `Node` records `parent`, the ordered `children` id list and the optional
  `message` payload;
* a mapping is an association list of node ids to nodes, in Python dict
  iteration order. -/

/-- Trailing-whitespace removal on a character list (the right half of
Python `str.strip()`). -/
def dropTrailingWS : List Char → List Char
  | [] => []
  | a :: t =>
    let r := dropTrailingWS t
    if r.isEmpty then (if a.isWhitespace then [] else [a]) else a :: r

/-- Python `str.strip()` on a character list: drop leading and trailing
whitespace. -/
def stripChars (l : List Char) : List Char :=
  dropTrailingWS (l.dropWhile Char.isWhitespace)

/-- Python `str.strip()` on a string. -/
def pyStrip (s : String) : String := ⟨stripChars s.data⟩

/-- One element of a message's `parts` list: a string, or a non-string JSON
structure with a given truthiness and `str(...)` rendering. -/
inductive Part : Type where
  | str : String → Part
  | obj : Bool → String → Part
deriving DecidableEq, Repr

/-- The `content` mapping of a message. -/
structure Content : Type where
  parts : Option (List Part)
  user_profile : Bool
  user_instructions : Bool
deriving DecidableEq, Repr

/-- A message payload: `author.role`, `content`, and the truthiness of
`metadata.is_visually_hidden_from_conversation`. -/
structure Message : Type where
  role : Option String
  content : Content
  hidden : Bool
deriving DecidableEq, Repr

/-- One node of the conversation mapping. -/
structure Node : Type where
  parent : Option String
  children : List String
  message : Option Message
deriving DecidableEq, Repr

/-- A conversation mapping: node ids to nodes, in iteration order. -/
abbrev Mapping : Type := List (String × Node)

/-- Kept message, as built at source lines 259-262: a role tag `"u"` or `"a"`
and the stripped content text. -/
structure KeptMsg : Type where
  r : String
  c : String
deriving DecidableEq, Repr

/-- Python dict lookup `mapping[node_id]` / `node_id in mapping`. -/
def lookupNode : Mapping → String → Option Node
  | [], _ => none
  | (k, n) :: rest, nid => if k = nid then some n else lookupNode rest nid

/-- `nid` is a key of the mapping. -/
def isKey (mapping : Mapping) (nid : String) : Prop := lookupNode mapping nid ≠ none

/-- Python truthiness-and-blankness test applied to a first part at source
lines 231 and 250: `not first_part or (isinstance(first_part, str) and
first_part.strip() == '')`. -/
def partBlank : Part → Bool
  | .str s => pyStrip s == ""
  | .obj truthy _ => !truthy

/-- `str(first_part)` coercion at source line 257: a string part is itself,
a non-string part is its rendering. -/
def partText : Part → String
  | .str s => s
  | .obj _ r => r

/-- The emptiness test applied to `content` at source lines 228-231 (for
system messages) and 243-253 (for all messages): the `parts` list (defaulting
to `[]`) is empty, or its first element is falsy/blank. -/
def firstPartBlank (content : Content) : Bool :=
  match content.parts.getD [] with
  | [] => true
  | p :: _ => partBlank p

/-- The per-node message disposition of `extract_messages_from_mapping`
(source lines 209-262): the sequence of skip rules followed by the
user/assistant emission.  Every branch of the Python code falls through to
traversing the children, so the node's contribution to the output is fully
described by this function returning `[]` (skip / no emission) or a singleton
kept message. -/
def emitMessage (msg : Message) : List KeptMsg :=
  if msg.hidden then []
  else if msg.role = some "tool" then []
  else if msg.role = some "system" ∧ firstPartBlank msg.content then []
  else if msg.content.user_profile ∨ msg.content.user_instructions then []
  else
    match msg.content.parts.getD [] with
    | [] => []
    | first :: _ =>
      if partBlank first then []
      else if msg.role = some "user" ∨ msg.role = some "assistant" then
        if pyStrip (partText first) ≠ "" then
          [⟨if msg.role = some "user" then "u" else "a", pyStrip (partText first)⟩]
        else []
      else []

/-- A node's contribution to the kept-message sequence: nothing when the node
has no message payload (source line 209), else per `emitMessage`. -/
def emitNode (node : Node) : List KeptMsg :=
  match node.message with
  | none => []
  | some msg => emitMessage msg

/-- A node's contribution looked up by id (`[]` for dangling ids). -/
def emitKey (mapping : Mapping) (nid : String) : List KeptMsg :=
  match lookupNode mapping nid with
  | none => []
  | some node => emitNode node

/-- The state of the traversal: the visited set (most recently visited id
first) and the accumulated kept messages. -/
structure TravState : Type where
  visited : List String
  messages : List KeptMsg
deriving DecidableEq, Repr

/-- The recursive `traverse` closure of `extract_messages_from_mapping`
(source lines 201-266), with an explicit fuel argument standing for the
unbounded recursion of the Python function.  One unit of fuel is consumed per
call; the adequacy theorem below shows any fuel exceeding the number of
mapping entries gives the same (stable) result, which is the termination
argument for the Python recursion. -/
def traverse (mapping : Mapping) : Nat → String → TravState → TravState
  | 0, _, st => st
  | fuel + 1, nid, st =>
    if nid ∈ st.visited then st
    else
      match lookupNode mapping nid with
      | none => st
      | some node =>
        node.children.foldl (fun s c => traverse mapping fuel c s)
          ⟨nid :: st.visited, st.messages ++ emitNode node⟩

/-- Root resolution (source lines 189-193): a supplied root id is used as is;
otherwise the first node in mapping-iteration order whose `parent` is
absent/null. -/
def resolveRoot (mapping : Mapping) (root_node_id : Option String) : Option String :=
  match root_node_id with
  | some r => some r
  | none => (mapping.find? fun p => p.2.parent.isNone).map Prod.fst

/-- `extract_messages_from_mapping` with explicit fuel for the recursion. -/
def extractFuel (mapping : Mapping) (fuel : Nat) (root_node_id : Option String) :
    List KeptMsg :=
  if mapping.isEmpty then []
  else
    match resolveRoot mapping root_node_id with
    | none => []
    | some root => (traverse mapping fuel root ⟨[], []⟩).messages

/-- `extract_messages_from_mapping` (source lines 183-269): fuel one more than
the number of mapping entries, which the adequacy theorem shows is enough. -/
def extract_messages_from_mapping (mapping : Mapping)
    (root_node_id : Option String := none) : List KeptMsg :=
  extractFuel mapping (mapping.length + 1) root_node_id

/-! ### Concrete mappings used in examples and witnesses -/

/-- A visible user message with a single string part. -/
def userMsg (t : String) : Message := ⟨some "user", ⟨some [.str t], false, false⟩, false⟩

/-- A visible assistant message with a single string part. -/
def assistantMsg (t : String) : Message := ⟨some "assistant", ⟨some [.str t], false, false⟩, false⟩

/-- The root of the skip-but-descend chain: a system message with empty
`parts`. -/
def chainRootNode : Node := ⟨none, ["child"], some ⟨some "system", ⟨some [], false, false⟩, false⟩⟩

/-- The middle of the skip-but-descend chain: a visually-hidden user
message. -/
def chainHiddenNode : Node :=
  ⟨some "root", ["grand"], some ⟨some "user", ⟨some [.str "secret"], false, false⟩, true⟩⟩

/-- Skip-but-descend chain: root (system, empty) → visually-hidden child →
visible user grandchild. -/
def chainMapping : Mapping :=
  [("root", chainRootNode),
   ("child", chainHiddenNode),
   ("grand", ⟨some "child", [], some (userMsg "hello")⟩)]

/-! ### C9: root-resolution degenerate cases -/

/-- C9: Root resolution degenerate cases.  An empty mapping yields the empty
sequence for any root argument; with no root supplied, the root is the first
node in mapping-iteration order whose parent is absent, and if no parentless
node exists the function returns the empty sequence. -/
theorem root_resolution :
    (∀ rid : Option String, extract_messages_from_mapping [] rid = [])
    ∧ (∀ (mapping : Mapping) (p : String × Node),
        mapping.find? (fun q => q.2.parent.isNone) = some p →
        extract_messages_from_mapping mapping none
          = extract_messages_from_mapping mapping (some p.1))
    ∧ (∀ mapping : Mapping, (∀ p ∈ mapping, (p.2.parent).isSome) →
        extract_messages_from_mapping mapping none = []) := by
  refine ⟨fun rid => rfl, ?_, ?_⟩
  · intro mapping p hf
    cases mapping with
    | nil => simp at hf
    | cons q qs =>
      simp [extract_messages_from_mapping, extractFuel, resolveRoot, hf]
  · intro mapping hp
    have hf : mapping.find? (fun q => q.2.parent.isNone) = none := by
      rw [List.find?_eq_none]
      intro p hmem
      have h' := hp p hmem
      cases hpp : p.2.parent with
      | none => rw [hpp] at h'; simp at h'
      | some v => simp [hpp]
    cases mapping with
    | nil => rfl
    | cons q qs =>
      simp [extract_messages_from_mapping, extractFuel, resolveRoot, hf]

/-- Witness for C9 at concrete inputs: a two-node mapping whose first
parentless node is the second entry, and a mapping with no parentless node. -/
theorem root_resolution_witness :
    extract_messages_from_mapping
        [("x", ⟨some "y", [], some (userMsg "one")⟩), ("y", ⟨none, [], some (userMsg "two")⟩)]
        none
      = extract_messages_from_mapping
          [("x", ⟨some "y", [], some (userMsg "one")⟩), ("y", ⟨none, [], some (userMsg "two")⟩)]
          (some "y")
    ∧ extract_messages_from_mapping [("x", ⟨some "x", [], some (userMsg "one")⟩)] none = [] :=
  ⟨root_resolution.2.1 _ ("y", ⟨none, [], some (userMsg "two")⟩) (by decide),
   root_resolution.2.2 _ (by decide)⟩

/-! ### C10: dangling node references -/

/-- C10: Dangling node references are ignored safely.  A child id (or supplied
root id) that is not a key of the mapping is skipped without any emission:
`traverse` leaves the state unchanged on it, the remaining siblings are still
traversed, and extraction from a dangling root yields the empty sequence. -/
theorem dangling_refs (mapping : Mapping) :
    (∀ (fuel : Nat) (nid : String) (st : TravState),
        lookupNode mapping nid = none → traverse mapping fuel nid st = st)
    ∧ (∀ (fuel : Nat) (c : String) (cs : List String) (st : TravState),
        lookupNode mapping c = none →
        (c :: cs).foldl (fun s x => traverse mapping fuel x s) st
          = cs.foldl (fun s x => traverse mapping fuel x s) st)
    ∧ (∀ r : String, lookupNode mapping r = none →
        extract_messages_from_mapping mapping (some r) = []) := by
  have h1 : ∀ (fuel : Nat) (nid : String) (st : TravState),
      lookupNode mapping nid = none → traverse mapping fuel nid st = st := by
    intro fuel nid st hl
    cases fuel with
    | zero => rfl
    | succ fuel =>
      by_cases hv : nid ∈ st.visited
      · simp [traverse, hv]
      · simp [traverse, hv, hl]
  refine ⟨h1, ?_, ?_⟩
  · intro fuel c cs st hl
    rw [List.foldl_cons, h1 fuel c st hl]
  · intro r hl
    cases mapping with
    | nil => rfl
    | cons q qs =>
      simp [extract_messages_from_mapping, extractFuel, resolveRoot,
        h1 (qs.length + 1 + 1) r ⟨[], []⟩ hl]

/-- Witness for C10: a mapping whose root lists a ghost child; the ghost id is
skipped and extraction from a ghost root yields nothing. -/
theorem dangling_refs_witness :
    traverse [("A", ⟨none, ["ghost"], some (userMsg "hi")⟩)] 5 "ghost" ⟨["A"], []⟩
        = ⟨["A"], []⟩
    ∧ extract_messages_from_mapping [("A", ⟨none, ["ghost"], some (userMsg "hi")⟩)]
        (some "ghost") = [] :=
  ⟨(dangling_refs _).1 5 "ghost" ⟨["A"], []⟩ (by decide),
   (dangling_refs _).2.2 "ghost" (by decide)⟩

/-! ### C6: skip-but-descend -/

/-- The skip rules of the per-node decision (spec §4.1 rules 1-6): no message
payload, hidden flag truthy, tool role, system role with empty/blank content,
`user_profile`/`user_instructions` content, or empty/blank first part. -/
def isSkipNode (node : Node) : Bool :=
  match node.message with
  | none => true
  | some msg =>
      msg.hidden || msg.role == some "tool"
        || (msg.role == some "system" && firstPartBlank msg.content)
        || msg.content.user_profile || msg.content.user_instructions
        || firstPartBlank msg.content

/-- C6: Skip-but-descend.  A node matching any skip rule contributes no kept
message, but the traversal still unconditionally descends into its children
(for every non-visited node present in the mapping, `traverse` recurses into
the children list); concretely, the chain root → visually-hidden child →
visible user grandchild yields exactly the grandchild's message. -/
theorem skip_but_descend :
    (∀ node : Node, isSkipNode node → emitNode node = [])
    ∧ (∀ (mapping : Mapping) (fuel : Nat) (nid : String) (st : TravState) (node : Node),
        nid ∉ st.visited → lookupNode mapping nid = some node →
        traverse mapping (fuel + 1) nid st
          = node.children.foldl (fun s c => traverse mapping fuel c s)
              ⟨nid :: st.visited, st.messages ++ emitNode node⟩)
    ∧ extract_messages_from_mapping chainMapping none = [⟨"u", "hello"⟩] := by
  refine ⟨?_, ?_, by decide⟩
  · intro node h
    cases hm : node.message with
    | none => simp [emitNode, hm]
    | some msg =>
      suffices hmsg : emitMessage msg = [] by simp [emitNode, hm, hmsg]
      simp only [isSkipNode, hm, Bool.or_eq_true, beq_iff_eq, Bool.and_eq_true] at h
      unfold emitMessage
      by_cases h1 : msg.hidden = true
      · simp [h1]
      by_cases h2 : msg.role = some "tool"
      · simp [h1, h2]
      by_cases h3 : msg.role = some "system" ∧ firstPartBlank msg.content = true
      · simp [h1, h2, h3]
      by_cases h5 : msg.content.user_profile = true ∨ msg.content.user_instructions = true
      · simp [h1, h2, h3, h5]
      have h6 : firstPartBlank msg.content = true := by
        rcases h with ((((h | h) | h) | h) | h) | h
        · exact absurd h h1
        · exact absurd h h2
        · exact absurd h h3
        · exact absurd (Or.inl h) h5
        · exact absurd (Or.inr h) h5
        · exact h
      rw [if_neg h1, if_neg h2, if_neg h3, if_neg h5]
      revert h6
      unfold firstPartBlank
      cases msg.content.parts.getD [] with
      | nil => intro h6; rfl
      | cons first rest => intro h6; simp at h6; simp [h6]
  · intro mapping fuel nid st node hv hl
    simp [traverse, hv, hl]

/-- Witness for C6: the hidden chain node is skipped, and the traversal of the
chain root proceeds to its children. -/
theorem skip_but_descend_witness :
    emitNode chainHiddenNode = []
    ∧ traverse chainMapping 1 "root" ⟨[], []⟩
        = chainRootNode.children.foldl (fun s c => traverse chainMapping 0 c s)
            ⟨"root" :: [], [] ++ emitNode chainRootNode⟩ :=
  ⟨skip_but_descend.1 chainHiddenNode (by decide),
   skip_but_descend.2.1 chainMapping 0 "root" ⟨[], []⟩ chainRootNode (by decide) (by decide)⟩

/-! ### C8: first-part-only inspection -/

/-- Single-node mapping whose root is a user message with parts
`["hello", "world"]`. -/
def helloWorldMapping : Mapping :=
  [("root", ⟨none, [], some ⟨some "user", ⟨some [.str "hello", .str "world"], false, false⟩, false⟩⟩)]

/-- Mapping whose root is a user message with empty parts `[]` and a visible
assistant child. -/
def emptyPartsMapping : Mapping :=
  [("root", ⟨none, ["c"], some ⟨some "user", ⟨some [], false, false⟩, false⟩⟩),
   ("c", ⟨some "root", [], some (assistantMsg "child kept")⟩)]

/-- C8: First-part-only inspection.  A kept node's emission depends only on
the first element of the parts list (two messages agreeing on everything but
the tail of `parts` emit identically); a user message with parts
`["hello", "world"]` yields text `"hello"`, and a message with empty parts
yields no kept message while its children are still visited. -/
theorem first_part_only :
    (∀ (parent : Option String) (children : List String) (role : Option String)
        (hidden up ui : Bool) (p : Part) (t1 t2 : List Part),
        emitNode ⟨parent, children, some ⟨role, ⟨some (p :: t1), up, ui⟩, hidden⟩⟩
          = emitNode ⟨parent, children, some ⟨role, ⟨some (p :: t2), up, ui⟩, hidden⟩⟩)
    ∧ extract_messages_from_mapping helloWorldMapping none = [⟨"u", "hello"⟩]
    ∧ extract_messages_from_mapping emptyPartsMapping none = [⟨"a", "child kept"⟩] := by
  refine ⟨?_, by decide, by decide⟩
  intro parent children role hidden up ui p t1 t2
  rfl

/-! ### C2: cycle safety, termination and exactly-once emission

The Python recursion terminates because each recursive entry adds a fresh
mapping key to the visited set.  We make this precise with the measure
`unvisited` (number of mapping keys not yet visited) and prove: (a) the
fuel-indexed traversal is independent of the fuel once the fuel exceeds the
measure — the formal content of termination; (b) the traversal's output is
the concatenation of the per-node emissions over a duplicate-free list of
entered nodes, which are exactly the reachable mapping keys — the formal
content of "each reachable message is emitted exactly once". -/

/-- Number of mapping keys not yet in the visited set. -/
def unvisited (mapping : Mapping) (visited : List String) : Nat :=
  ((mapping.map Prod.fst).filter fun k => k ∉ visited).length

/-- Filtering with a stronger predicate yields a shorter list. -/
theorem filter_length_mono (p q : String → Bool) (h : ∀ x, p x = true → q x = true) :
    ∀ l : List String, (l.filter p).length ≤ (l.filter q).length := by
  intro l
  induction l with
  | nil => simp
  | cons a t ih =>
    rw [List.filter_cons, List.filter_cons]
    by_cases hp : p a = true
    · rw [if_pos hp, if_pos (h a hp)]
      simpa using ih
    · rw [if_neg hp]
      by_cases hq : q a = true
      · rw [if_pos hq]
        exact le_trans ih (by simp)
      · rw [if_neg hq]
        exact ih

/-- Growing the visited set cannot increase the `unvisited` measure. -/
theorem unvisited_mono (mapping : Mapping) (v w : List String)
    (h : ∀ x, x ∈ v → x ∈ w) : unvisited mapping w ≤ unvisited mapping v := by
  apply filter_length_mono
  intro x hx
  simp only [decide_eq_true_eq] at hx ⊢
  exact fun hv => hx (h x hv)

/-- A present node id is among the mapping keys. -/
theorem mem_keys_of_lookup (mapping : Mapping) (nid : String)
    (h : lookupNode mapping nid ≠ none) : nid ∈ mapping.map Prod.fst := by
  induction mapping with
  | nil => simp [lookupNode] at h
  | cons p t ih =>
    rw [List.map_cons]
    by_cases hp : p.1 = nid
    · simp [hp]
    · simp only [lookupNode, if_neg hp] at h
      exact List.mem_cons_of_mem _ (ih h)

/-- Adding a fresh element of the list to the exclusion set strictly shrinks
the filtered list. -/
theorem filter_cons_lt (v : List String) (nid : String) (hv : nid ∉ v) :
    ∀ l : List String, nid ∈ l →
      (l.filter fun k => decide (k ∉ nid :: v)).length
        < (l.filter fun k => decide (k ∉ v)).length := by
  intro l
  induction l with
  | nil => intro hmem; simp at hmem
  | cons a t ih =>
    intro hmem
    rw [List.filter_cons, List.filter_cons]
    by_cases han : a = nid
    · subst han
      have h1 : (decide (a ∉ a :: v)) = false := by simp
      have h2 : (decide (a ∉ v)) = true := by simpa using hv
      have hmono := filter_length_mono (fun k => decide (k ∉ a :: v))
        (fun k => decide (k ∉ v))
        (by intro x hx
            simp only [decide_eq_true_eq] at hx ⊢
            exact fun hxv => hx (List.mem_cons_of_mem _ hxv)) t
      simp only [h1, h2, Bool.false_eq_true, if_false, if_true, List.length_cons]
      omega
    · have hnt : nid ∈ t := by
        rcases List.mem_cons.1 hmem with h | h
        · exact absurd h.symm han
        · exact h
      have heq : (decide (a ∉ nid :: v)) = (decide (a ∉ v)) := by
        by_cases hav : a ∈ v
        · simp [hav]
        · simp [hav, han]
      rw [heq]
      by_cases hav : (decide (a ∉ v)) = true
      · rw [if_pos hav, if_pos hav]
        simpa using ih hnt
      · rw [if_neg hav, if_neg hav]
        exact ih hnt

/-- Visiting a fresh mapping key strictly decreases the `unvisited`
measure. -/
theorem unvisited_cons_lt (mapping : Mapping) (v : List String) (nid : String)
    (hk : lookupNode mapping nid ≠ none) (hv : nid ∉ v) :
    unvisited mapping (nid :: v) < unvisited mapping v :=
  filter_cons_lt v nid hv (mapping.map Prod.fst) (mem_keys_of_lookup mapping nid hk)

/-- With nothing visited the measure is the number of mapping entries. -/
theorem unvisited_nil (mapping : Mapping) : unvisited mapping [] = mapping.length := by
  simp [unvisited]

/-- Reachability along children edges through nodes present in the mapping. -/
inductive Reaches (mapping : Mapping) : String → String → Prop where
  | refl (a : String) : Reaches mapping a a
  | step {a b c : String} {n : Node} : Reaches mapping a b →
      lookupNode mapping b = some n → c ∈ n.children → Reaches mapping a c

theorem Reaches.trans {mapping : Mapping} {a b c : String}
    (hab : Reaches mapping a b) (hbc : Reaches mapping b c) : Reaches mapping a c := by
  induction hbc with
  | refl => exact hab
  | step _ hl hc ih => exact Reaches.step ih hl hc

/-- Shape of a traversal call: given sufficient fuel, the call appends a
duplicate-free list of freshly entered mapping keys to the visited set (in
reverse pre-order), appends exactly the concatenation of their per-node
emissions to the messages, enters the start node if it is a fresh key,
closes the entered set under present children, and only enters nodes
reachable from the start. -/
theorem traverse_shape (mapping : Mapping) :
    ∀ (n fuel : Nat) (nid : String) (st : TravState),
      unvisited mapping st.visited = n → unvisited mapping st.visited < fuel →
      ∃ entered : List String,
        traverse mapping fuel nid st
          = ⟨entered.reverse ++ st.visited,
             st.messages ++ (entered.map (emitKey mapping)).flatten⟩
        ∧ entered.Nodup
        ∧ (∀ x ∈ entered, x ∉ st.visited ∧ lookupNode mapping x ≠ none)
        ∧ (∀ x ∈ entered, ∀ nd, lookupNode mapping x = some nd →
            ∀ c ∈ nd.children, lookupNode mapping c ≠ none →
              c ∈ entered.reverse ++ st.visited)
        ∧ (lookupNode mapping nid ≠ none → nid ∈ entered.reverse ++ st.visited)
        ∧ (∀ x ∈ entered, Reaches mapping nid x) := by
  intro n
  induction n using Nat.strong_induction_on with
  | _ n IH =>
    intro fuel nid st hn hfuel
    cases fuel with
    | zero => omega
    | succ f =>
      by_cases hv : nid ∈ st.visited
      · refine ⟨[], by simp [traverse, hv], List.nodup_nil, by simp, by simp, ?_, by simp⟩
        intro _
        simpa using hv
      · cases hl : lookupNode mapping nid with
        | none =>
          refine ⟨[], by simp [traverse, hv, hl], List.nodup_nil, by simp, by simp, ?_, by simp⟩
          intro hk
          exact absurd rfl hk
        | some node =>
          have hkey : lookupNode mapping nid ≠ none := by rw [hl]; simp
          have hdec : unvisited mapping (nid :: st.visited) < unvisited mapping st.visited :=
            unvisited_cons_lt mapping st.visited nid hkey hv
          -- the state right after entering nid
          have hfold : ∀ (cs : List String) (stf : TravState),
              unvisited mapping stf.visited < n → unvisited mapping stf.visited < f →
              ∃ entered : List String,
                cs.foldl (fun s c => traverse mapping f c s) stf
                  = ⟨entered.reverse ++ stf.visited,
                     stf.messages ++ (entered.map (emitKey mapping)).flatten⟩
                ∧ entered.Nodup
                ∧ (∀ x ∈ entered, x ∉ stf.visited ∧ lookupNode mapping x ≠ none)
                ∧ (∀ x ∈ entered, ∀ nd, lookupNode mapping x = some nd →
                    ∀ c ∈ nd.children, lookupNode mapping c ≠ none →
                      c ∈ entered.reverse ++ stf.visited)
                ∧ (∀ c ∈ cs, lookupNode mapping c ≠ none →
                    c ∈ entered.reverse ++ stf.visited)
                ∧ (∀ x ∈ entered, ∃ c ∈ cs, Reaches mapping c x) := by
            intro cs
            induction cs with
            | nil =>
              intro stf h1 h2
              exact ⟨[], by simp, List.nodup_nil, by simp, by simp, by simp, by simp⟩
            | cons c rest ihc =>
              intro stf h1 h2
              obtain ⟨e1, heq1, hnd1, hfresh1, hcl1, hmem1, hrb1⟩ :=
                IH (unvisited mapping stf.visited) h1 f c stf rfl h2
              have hgrow : ∀ x, x ∈ stf.visited → x ∈ e1.reverse ++ stf.visited := by
                intro x hx; exact List.mem_append_right _ hx
              have hle : unvisited mapping (e1.reverse ++ stf.visited)
                  ≤ unvisited mapping stf.visited := unvisited_mono mapping _ _ hgrow
              obtain ⟨e2, heq2, hnd2, hfresh2, hcl2, hmem2, hrb2⟩ :=
                ihc ⟨e1.reverse ++ stf.visited,
                     stf.messages ++ (e1.map (emitKey mapping)).flatten⟩
                  (lt_of_le_of_lt hle h1) (lt_of_le_of_lt hle h2)
              refine ⟨e1 ++ e2, ?_, ?_, ?_, ?_, ?_, ?_⟩
              · rw [List.foldl_cons, heq1, heq2]
                simp [List.append_assoc]
              · rw [List.nodup_append]
                refine ⟨hnd1, hnd2, ?_⟩
                intro x hx1 hx2
                have := (hfresh2 x hx2).1
                simp only [List.mem_append, List.mem_reverse] at this
                exact this (Or.inl hx1)
              · intro x hx
                rcases List.mem_append.1 hx with hx | hx
                · exact hfresh1 x hx
                · refine ⟨?_, (hfresh2 x hx).2⟩
                  have := (hfresh2 x hx).1
                  simp only [List.mem_append, List.mem_reverse] at this
                  exact fun hxv => this (Or.inr hxv)
              · intro x hx nd hnd hc hcc hck
                rcases List.mem_append.1 hx with hx | hx
                · have := hcl1 x hx nd hnd hc hcc hck
                  simp only [List.mem_append, List.mem_reverse] at this ⊢
                  tauto
                · have := hcl2 x hx nd hnd hc hcc hck
                  simp only [List.mem_append, List.mem_reverse] at this ⊢
                  tauto
              · intro d hd hkd
                rcases List.mem_cons.1 hd with hd | hd
                · subst hd
                  have := hmem1 hkd
                  simp only [List.mem_append, List.mem_reverse] at this ⊢
                  tauto
                · have := hmem2 d hd hkd
                  simp only [List.mem_append, List.mem_reverse] at this ⊢
                  tauto
              · intro x hx
                rcases List.mem_append.1 hx with hx | hx
                · exact ⟨c, List.mem_cons_self c rest, hrb1 x hx⟩
                · obtain ⟨d, hd, hr⟩ := hrb2 x hx
                  exact ⟨d, List.mem_cons_of_mem _ hd, hr⟩
          have hf1 : unvisited mapping (nid :: st.visited) < n := hn ▸ hdec
          have hf2 : unvisited mapping (nid :: st.visited) < f := by omega
          obtain ⟨e, heq, hnd, hfresh, hcl, hmem, hrb⟩ :=
            hfold node.children ⟨nid :: st.visited, st.messages ++ emitNode node⟩ hf1 hf2
          refine ⟨nid :: e, ?_, ?_, ?_, ?_, ?_, ?_⟩
          · rw [show traverse mapping (f + 1) nid st
                  = node.children.foldl (fun s c => traverse mapping f c s)
                      ⟨nid :: st.visited, st.messages ++ emitNode node⟩ by
                simp [traverse, hv, hl]]
            rw [heq]
            simp [emitKey, hl, List.append_assoc]
          · rw [List.nodup_cons]
            refine ⟨?_, hnd⟩
            intro hmem'
            have := (hfresh nid hmem').1
            simp at this
          · intro x hx
            rcases List.mem_cons.1 hx with hx | hx
            · subst hx; exact ⟨hv, hkey⟩
            · have h1 := (hfresh x hx).1
              simp only [List.mem_cons] at h1
              exact ⟨fun hxv => h1 (Or.inr hxv), (hfresh x hx).2⟩
          · intro x hx nd hnd' hc hcc hck
            rcases List.mem_cons.1 hx with hx | hx
            · subst hx
              rw [hl] at hnd'
              injection hnd' with hnd'
              subst hnd'
              have := hmem hc hcc hck
              simp only [List.mem_append, List.mem_reverse, List.mem_cons] at this ⊢
              tauto
            · have := hcl x hx nd hnd' hc hcc hck
              simp only [List.mem_append, List.mem_reverse, List.mem_cons] at this ⊢
              tauto
          · intro _
            simp
          · intro x hx
            rcases List.mem_cons.1 hx with hx | hx
            · subst hx; exact Reaches.refl _
            · obtain ⟨c, hc, hr⟩ := hrb x hx
              exact Reaches.trans (Reaches.step (Reaches.refl nid) hl hc) hr

/-- Fuel adequacy: any two fuels exceeding the `unvisited` measure give the
same traversal result.  This is the termination argument for the Python
recursion: past the bound, extra recursion depth never changes anything. -/
theorem traverse_fuel_indep (mapping : Mapping) :
    ∀ (n f1 f2 : Nat) (nid : String) (st : TravState),
      unvisited mapping st.visited = n → n < f1 → n < f2 →
      traverse mapping f1 nid st = traverse mapping f2 nid st := by
  intro n
  induction n using Nat.strong_induction_on with
  | _ n IH =>
    intro f1 f2 nid st hn h1 h2
    cases f1 with
    | zero => omega
    | succ g1 =>
      cases f2 with
      | zero => omega
      | succ g2 =>
        by_cases hv : nid ∈ st.visited
        · simp [traverse, hv]
        · cases hl : lookupNode mapping nid with
          | none => simp [traverse, hv, hl]
          | some node =>
            have hkey : lookupNode mapping nid ≠ none := by rw [hl]; simp
            have hdec : unvisited mapping (nid :: st.visited) < n :=
              hn ▸ unvisited_cons_lt mapping st.visited nid hkey hv
            have hfold : ∀ (cs : List String) (stf : TravState),
                unvisited mapping stf.visited < n →
                unvisited mapping stf.visited < g1 →
                unvisited mapping stf.visited < g2 →
                cs.foldl (fun s c => traverse mapping g1 c s) stf
                  = cs.foldl (fun s c => traverse mapping g2 c s) stf := by
              intro cs
              induction cs with
              | nil => intro stf _ _ _; rfl
              | cons c rest ihc =>
                intro stf hsn hsg1 hsg2
                have heq : traverse mapping g1 c stf = traverse mapping g2 c stf :=
                  IH (unvisited mapping stf.visited) hsn g1 g2 c stf rfl hsg1 hsg2
                obtain ⟨e, hshape, -⟩ :=
                  traverse_shape mapping (unvisited mapping stf.visited) g1 c stf rfl hsg1
                have hle : unvisited mapping (traverse mapping g1 c stf).visited
                    ≤ unvisited mapping stf.visited := by
                  rw [hshape]
                  exact unvisited_mono mapping _ _
                    (fun x hx => List.mem_append_right _ hx)
                rw [List.foldl_cons, List.foldl_cons, ← heq]
                exact ihc (traverse mapping g1 c stf)
                  (lt_of_le_of_lt hle hsn) (lt_of_le_of_lt hle hsg1)
                  (lt_of_le_of_lt hle hsg2)
            rw [show traverse mapping (g1 + 1) nid st
                  = node.children.foldl (fun s c => traverse mapping g1 c s)
                      ⟨nid :: st.visited, st.messages ++ emitNode node⟩ by
                  simp [traverse, hv, hl],
                show traverse mapping (g2 + 1) nid st
                  = node.children.foldl (fun s c => traverse mapping g2 c s)
                      ⟨nid :: st.visited, st.messages ++ emitNode node⟩ by
                  simp [traverse, hv, hl]]
            have hg1 : unvisited mapping (nid :: st.visited) < g1 := by omega
            have hg2 : unvisited mapping (nid :: st.visited) < g2 := by omega
            exact hfold node.children ⟨nid :: st.visited, st.messages ++ emitNode node⟩
              hdec hg1 hg2

/-- C2: Cycle safety and termination of the tree reducer.  For every mapping
(cyclic ones included) and any fuel exceeding the number of mapping entries,
the fuel-indexed extraction equals `extract_messages_from_mapping` (the
recursion is stable, i.e. terminates), and the extracted messages are the
concatenation of the per-node emissions over a duplicate-free list of entered
nodes — exactly the mapping keys reachable from the resolved root.  A node
already in the visited set is not re-entered, so no reachable message is
emitted twice. -/
theorem cycle_safe_traversal (mapping : Mapping) (root_node_id : Option String)
    (fuel : Nat) (hfuel : mapping.length < fuel) :
    extractFuel mapping fuel root_node_id = extract_messages_from_mapping mapping root_node_id
    ∧ ∃ entered : List String, entered.Nodup
        ∧ extract_messages_from_mapping mapping root_node_id
            = (entered.map (emitKey mapping)).flatten
        ∧ (∀ r, resolveRoot mapping root_node_id = some r →
            ∀ x, x ∈ entered ↔ Reaches mapping r x ∧ lookupNode mapping x ≠ none) := by
  by_cases hM : mapping.isEmpty
  · have hMnil : mapping = [] := by
      cases mapping with
      | nil => rfl
      | cons p t => simp [List.isEmpty] at hM
    subst hMnil
    refine ⟨rfl, [], List.nodup_nil, rfl, ?_⟩
    intro r _ x
    simp [lookupNode]
  · cases hr : resolveRoot mapping root_node_id with
    | none =>
      constructor
      · simp [extractFuel, extract_messages_from_mapping, hM, hr]
      · refine ⟨[], List.nodup_nil, ?_, ?_⟩
        · simp [extractFuel, extract_messages_from_mapping, hM, hr]
        · intro r hr'
          exact absurd hr' (by simp)
    | some r =>
      have hn0 : unvisited mapping ([] : List String) = mapping.length :=
        unvisited_nil mapping
      have hfi : traverse mapping fuel r ⟨[], []⟩
          = traverse mapping (mapping.length + 1) r ⟨[], []⟩ := by
        apply traverse_fuel_indep mapping mapping.length fuel (mapping.length + 1) r ⟨[], []⟩
        · exact hn0
        · exact hfuel
        · omega
      obtain ⟨entered, heq, hnd, hfresh, hcl, hmem, hrb⟩ :=
        traverse_shape mapping mapping.length (mapping.length + 1) r
          ⟨[], []⟩ hn0 (by simpa [hn0] using Nat.lt_succ_self mapping.length)
      have hext : extract_messages_from_mapping mapping root_node_id
          = (entered.map (emitKey mapping)).flatten := by
        simp [extract_messages_from_mapping, extractFuel, hM, hr, heq]
      refine ⟨?_, entered, hnd, hext, ?_⟩
      · simp [extract_messages_from_mapping, extractFuel, hM, hr, hfi]
      · intro r' hr' x
        injection hr' with hr'
        subst hr'
        constructor
        · intro hx
          exact ⟨hrb x hx, (hfresh x hx).2⟩
        · rintro ⟨hreach, hkx⟩
          induction hreach with
          | refl =>
            have := hmem hkx
            simpa using this
          | step hab hlb hcb ih =>
            rename_i b c nd
            have hb : b ∈ entered := ih (by rw [hlb]; simp)
            have := hcl b hb nd hlb c hcb hkx
            simpa using this

/-- A two-node cyclic mapping: A lists B as child and B lists A back. -/
def cycleMapping : Mapping :=
  [("A", ⟨none, ["B"], some (userMsg "hi")⟩),
   ("B", ⟨some "A", ["A"], some (assistantMsg "yo")⟩)]

/-- Witness for C2 on the concrete cyclic mapping: any sufficient fuel gives
the stable result, and each reachable message appears exactly once. -/
theorem cycle_safe_traversal_witness :
    extractFuel cycleMapping 7 none = extract_messages_from_mapping cycleMapping none
    ∧ extract_messages_from_mapping cycleMapping none = [⟨"u", "hi"⟩, ⟨"a", "yo"⟩] :=
  ⟨(cycle_safe_traversal cycleMapping none 7 (by decide)).1, by decide⟩

/-! ## Conversation condenser (`clean_conversation`, source lines 272-301)

The date derivation `datetime.fromtimestamp(create_time).strftime('%Y-%m-%d')`
renders the epoch timestamp in the local time zone of the executing process;
the embedding abstracts that library call as a parameter `dateFn`.  The
guard in the source is `if create_time:` — Python truthiness — so a present
but zero timestamp counts as absent. -/

/-- An input conversation as read by `clean_conversation`: the optional
`create_time` epoch timestamp, the optional `title` and the node mapping. -/
structure Conv : Type where
  create_time : Option Int
  title : Option String
  mapping : Mapping
deriving DecidableEq

/-- The cleaned conversation: optional date `d`, optional title `tt` (absent
fields are `none`, matching the `del` statements of source lines 296-299) and
the extracted messages `m`. -/
structure Cleaned : Type where
  d : Option String
  tt : Option String
  m : List KeptMsg
deriving DecidableEq

/-- `clean_conversation` (source lines 272-301).  `dateFn` stands for
`datetime.fromtimestamp(·).strftime('%Y-%m-%d')` (local-time-zone
rendering). -/
def clean_conversation (dateFn : Int → String) (conv : Conv) : Cleaned :=
  let date_str : Option String :=
    match conv.create_time with
    | some t => if t ≠ 0 then some (dateFn t) else none
    | none => none
  let title := conv.title.getD ""
  let messages := extract_messages_from_mapping conv.mapping none
  { d := date_str
    tt := if title = "" then none else some title
    m := messages }

/-- C5 counterexample: a conversation whose `create_time` is set to `0` has a
set `createTime` yet the cleaned output carries no date field — `if
create_time:` is a Python truthiness test, not a presence test.  This refutes
"the output contains the date field iff createTime was set". -/
theorem date_presence_counterexample :
    ¬ (((clean_conversation (fun _ => "1970-01-01") ⟨some 0, none, []⟩).d).isSome
        ↔ ((⟨some 0, none, []⟩ : Conv).create_time).isSome) := by
  decide

/-- C5 (amended): the cleaned conversation contains the date field iff
`create_time` is set to a non-zero (truthy) value, and in that case the date
is the rendering of that timestamp; when `create_time` is absent or zero the
date field is absent. -/
theorem date_presence (dateFn : Int → String) (conv : Conv) :
    ((clean_conversation dateFn conv).d.isSome
        ↔ ∃ t, conv.create_time = some t ∧ t ≠ 0)
    ∧ (∀ t : Int, conv.create_time = some t → t ≠ 0 →
        (clean_conversation dateFn conv).d = some (dateFn t)) := by
  constructor
  · cases hc : conv.create_time with
    | none => simp [clean_conversation, hc]
    | some t =>
      by_cases ht : t = 0
      · simp [clean_conversation, hc, ht]
      · simp [clean_conversation, hc, ht]
  · intro t hc ht
    simp [clean_conversation, hc, ht]

/-- Witness for C5 (amended) at `create_time = 1700000000`. -/
theorem date_presence_witness :
    ((clean_conversation (fun _ => "2023-11-14") ⟨some 1700000000, none, []⟩).d.isSome
        ↔ ∃ t, (⟨some 1700000000, none, []⟩ : Conv).create_time = some t ∧ t ≠ 0)
    ∧ (clean_conversation (fun _ => "2023-11-14") ⟨some 1700000000, none, []⟩).d
        = some "2023-11-14" :=
  ⟨(date_presence _ _).1, (date_presence _ _).2 1700000000 rfl (by decide)⟩

/-! ## Whitespace normalizer (`normalize_whitespace`, source lines 361-378)

The per-text transform at source lines 369-375 is: collapse runs of 2+
spaces to one space (`re.sub(r' {2,}', ' ', ...)`), collapse runs of 2+
newlines to one newline, split on `'\n'`, strip each line, and rejoin with
`'\n'`.  Texts are modeled as character lists; `squeeze c` collapses each
maximal run of the character `c` to a single occurrence, exactly the effect
of the greedy regex substitution. -/

/-- Collapse every run of two or more occurrences of `c` to a single
occurrence (the effect of `re.sub(c{2,}, c, ·)`). -/
def squeeze (c : Char) : List Char → List Char
  | [] => []
  | [a] => [a]
  | a :: b :: t => if a = c ∧ b = c then squeeze c (b :: t) else a :: squeeze c (b :: t)

/-- Helper for splitting on newlines: returns the first line and the
remaining lines. -/
def splitNLAux : List Char → List Char × List (List Char)
  | [] => ([], [])
  | a :: rest =>
    if a = '\n' then ([], (splitNLAux rest).1 :: (splitNLAux rest).2)
    else (a :: (splitNLAux rest).1, (splitNLAux rest).2)

/-- Python `str.split('\n')`: the (always non-empty) list of lines. -/
def splitNL (l : List Char) : List (List Char) :=
  (splitNLAux l).1 :: (splitNLAux l).2

/-- Python `'\n'.join(...)`. -/
def joinNL : List (List Char) → List Char
  | [] => []
  | [l] => l
  | l :: l' :: ls => l ++ '\n' :: joinNL (l' :: ls)

/-- The text transform of `normalize_whitespace` (source lines 369-375). -/
def normalizeChars (s : List Char) : List Char :=
  joinNL ((splitNL (squeeze '\n' (squeeze ' ' s))).map stripChars)

/-- `normalize_whitespace`'s per-message text normalization, on strings. -/
def normalize_whitespace_text (s : String) : String :=
  ⟨normalizeChars s.data⟩

/-- C4 counterexample: on `"a\n \nb"` (a whitespace-only line between two
newlines) normalization is not idempotent: one pass yields `"a\n\nb"`
(the blank line is stripped to empty after the newline collapse already ran),
a second pass collapses the now-adjacent newlines to `"a\nb"`. -/
theorem normalize_idempotent_counterexample :
    normalize_whitespace_text (normalize_whitespace_text "a\n \nb")
      ≠ normalize_whitespace_text "a\n \nb" := by
  decide

/-! ### Runs of a character: `noDoubles` and properties of `squeeze` -/

/-- No two adjacent occurrences of `c` anywhere in the list. -/
def noDoubles (c : Char) : List Char → Bool
  | [] => true
  | [_] => true
  | a :: b :: t => !(decide (a = c ∧ b = c)) && noDoubles c (b :: t)

theorem noDoubles_tail (c a : Char) (t : List Char)
    (h : noDoubles c (a :: t) = true) : noDoubles c t = true := by
  cases t with
  | nil => rfl
  | cons b t' =>
    simp only [noDoubles, Bool.and_eq_true] at h
    exact h.2

theorem noDoubles_cons_of_ne (c a : Char) (t : List Char) (h : a ≠ c) :
    noDoubles c (a :: t) = noDoubles c t := by
  cases t with
  | nil => rfl
  | cons b t' => simp [noDoubles, h]

theorem noDoubles_of_not_mem (c : Char) :
    ∀ l : List Char, c ∉ l → noDoubles c l = true := by
  intro l
  induction l with
  | nil => intro _; rfl
  | cons a t ih =>
    intro h
    have ha : a ≠ c := fun he => h (by rw [← he]; exact List.mem_cons_self a t)
    rw [noDoubles_cons_of_ne c a t ha]
    exact ih fun hc => h (List.mem_cons_of_mem _ hc)

theorem noDoubles_append_sep (c sep : Char) (hsep : sep ≠ c) (ys : List Char)
    (hys : noDoubles c (sep :: ys) = true) :
    ∀ xs, noDoubles c xs = true → noDoubles c (xs ++ sep :: ys) = true := by
  intro xs
  induction xs with
  | nil => intro _; exact hys
  | cons a xs' ih =>
    intro h
    cases xs' with
    | nil =>
      show noDoubles c (a :: sep :: ys) = true
      simp [noDoubles, hsep, hys]
    | cons b xs'' =>
      simp only [noDoubles, Bool.and_eq_true] at h
      show noDoubles c (a :: b :: (xs'' ++ sep :: ys)) = true
      simp only [noDoubles, Bool.and_eq_true]
      exact ⟨h.1, ih h.2⟩

theorem noDoubles_append_mem (c sep : Char) (ys : List Char)
    (hys : noDoubles c (sep :: ys) = true) :
    ∀ xs, c ∉ xs → noDoubles c (xs ++ sep :: ys) = true := by
  intro xs
  induction xs with
  | nil => intro _; exact hys
  | cons a xs' ih =>
    intro h
    have ha : a ≠ c := fun he => h (by rw [← he]; exact List.mem_cons_self a xs')
    show noDoubles c (a :: (xs' ++ sep :: ys)) = true
    rw [noDoubles_cons_of_ne c a _ ha]
    exact ih fun hc => h (List.mem_cons_of_mem _ hc)

theorem squeeze_cons_ne (c a : Char) (t : List Char) (h : a ≠ c) :
    squeeze c (a :: t) = a :: squeeze c t := by
  cases t with
  | nil => rfl
  | cons b t' => simp [squeeze, h]

theorem squeeze_head (c : Char) :
    ∀ (t : List Char) (a : Char), ∃ r, squeeze c (a :: t) = a :: r := by
  intro t
  induction t with
  | nil => intro a; exact ⟨[], rfl⟩
  | cons b t' ih =>
    intro a
    by_cases h : a = c ∧ b = c
    · obtain ⟨r, hr⟩ := ih b
      refine ⟨r, ?_⟩
      rw [show squeeze c (a :: b :: t') = squeeze c (b :: t') by simp [squeeze, h], hr,
        h.1, h.2]
    · exact ⟨squeeze c (b :: t'), by simp [squeeze, h]⟩

theorem noDoubles_squeeze (c : Char) : ∀ l, noDoubles c (squeeze c l) = true := by
  intro l
  induction l with
  | nil => rfl
  | cons a t ih =>
    cases t with
    | nil => rfl
    | cons b t' =>
      by_cases h : a = c ∧ b = c
      · rw [show squeeze c (a :: b :: t') = squeeze c (b :: t') by simp [squeeze, h]]
        exact ih
      · rw [show squeeze c (a :: b :: t') = a :: squeeze c (b :: t') by simp [squeeze, h]]
        obtain ⟨r, hr⟩ := squeeze_head c t' b
        rw [hr]
        simp only [noDoubles, Bool.and_eq_true]
        refine ⟨by simp [h], ?_⟩
        rw [← hr]
        exact ih

theorem squeeze_eq_self (c : Char) : ∀ l, noDoubles c l = true → squeeze c l = l := by
  intro l
  induction l with
  | nil => intro _; rfl
  | cons a t ih =>
    intro h
    cases t with
    | nil => rfl
    | cons b t' =>
      simp only [noDoubles, Bool.and_eq_true, Bool.not_eq_true', decide_eq_false_iff_not] at h
      rw [show squeeze c (a :: b :: t') = a :: squeeze c (b :: t') by simp [squeeze, h.1]]
      rw [ih h.2]

theorem squeeze_mem (c : Char) : ∀ l x, x ∈ squeeze c l → x ∈ l := by
  intro l
  induction l with
  | nil => intro x hx; exact absurd hx (by simp [squeeze])
  | cons a t ih =>
    intro x hx
    cases t with
    | nil => exact hx
    | cons b t' =>
      by_cases h : a = c ∧ b = c
      · rw [show squeeze c (a :: b :: t') = squeeze c (b :: t') by simp [squeeze, h]] at hx
        exact List.mem_cons_of_mem _ (ih x hx)
      · rw [show squeeze c (a :: b :: t') = a :: squeeze c (b :: t') by simp [squeeze, h]] at hx
        rcases List.mem_cons.1 hx with rfl | hx'
        · exact List.mem_cons_self _ _
        · exact List.mem_cons_of_mem _ (ih x hx')

theorem squeeze_all_ws (c : Char) (hc : c.isWhitespace = true) :
    ∀ l, (∀ x ∈ squeeze c l, x.isWhitespace = true) →
      ∀ x ∈ l, x.isWhitespace = true := by
  intro l
  induction l with
  | nil => intro _ x hx; exact absurd hx (by simp)
  | cons a t ih =>
    cases t with
    | nil =>
      intro h x hx
      rcases List.mem_cons.1 hx with rfl | hx'
      · exact h x (by exact List.mem_cons_self _ _)
      · exact absurd hx' (by simp)
    | cons b t' =>
      intro h x hx
      by_cases hab : a = c ∧ b = c
      · have heq : squeeze c (a :: b :: t') = squeeze c (b :: t') := by simp [squeeze, hab]
        rcases List.mem_cons.1 hx with rfl | hx'
        · rw [hab.1]; exact hc
        · exact ih (fun y hy => h y (by rw [heq]; exact hy)) x hx'
      · have heq : squeeze c (a :: b :: t') = a :: squeeze c (b :: t') := by
          simp [squeeze, hab]
        rcases List.mem_cons.1 hx with rfl | hx'
        · exact h x (by rw [heq]; exact List.mem_cons_self _ _)
        · exact ih (fun y hy => h y (by rw [heq]; exact List.mem_cons_of_mem _ hy)) x hx'

theorem squeeze_preserves_noDoubles (c d : Char) :
    ∀ l, noDoubles d l = true → noDoubles d (squeeze c l) = true := by
  intro l
  induction l with
  | nil => intro _; rfl
  | cons a t ih =>
    intro h
    cases t with
    | nil => rfl
    | cons b t' =>
      have htl : noDoubles d (b :: t') = true := noDoubles_tail d a _ h
      by_cases hab : a = c ∧ b = c
      · rw [show squeeze c (a :: b :: t') = squeeze c (b :: t') by simp [squeeze, hab]]
        exact ih htl
      · rw [show squeeze c (a :: b :: t') = a :: squeeze c (b :: t') by simp [squeeze, hab]]
        obtain ⟨r, hr⟩ := squeeze_head c t' b
        rw [hr]
        simp only [noDoubles, Bool.and_eq_true]
        constructor
        · simp only [noDoubles, Bool.and_eq_true] at h
          exact h.1
        · rw [← hr]
          exact ih htl

/-! ### Properties of `stripChars` -/

theorem dropWhile_head_not (p : Char → Bool) :
    ∀ (l : List Char) (a : Char) (t : List Char),
      l.dropWhile p = a :: t → p a = false := by
  intro l
  induction l with
  | nil => intro a t h; simp at h
  | cons b l' ih =>
    intro a t h
    rw [List.dropWhile_cons] at h
    by_cases hb : p b = true
    · rw [if_pos hb] at h
      exact ih a t h
    · rw [if_neg hb] at h
      injection h with h1 _
      rw [h1] at hb
      simpa using hb

theorem dropWhile_mem (p : Char → Bool) :
    ∀ (l : List Char) (x : Char), x ∈ l.dropWhile p → x ∈ l := by
  intro l
  induction l with
  | nil => intro x hx; simpa using hx
  | cons a t ih =>
    intro x hx
    rw [List.dropWhile_cons] at hx
    by_cases ha : p a = true
    · rw [if_pos ha] at hx
      exact List.mem_cons_of_mem _ (ih x hx)
    · rwa [if_neg ha] at hx

theorem dropWhile_noDoubles (c : Char) (p : Char → Bool) :
    ∀ l, noDoubles c l = true → noDoubles c (l.dropWhile p) = true := by
  intro l
  induction l with
  | nil => intro _; rfl
  | cons a t ih =>
    intro h
    rw [List.dropWhile_cons]
    by_cases ha : p a = true
    · rw [if_pos ha]
      exact ih (noDoubles_tail c a t h)
    · rwa [if_neg ha]

theorem dtw_mem : ∀ (l : List Char) (x : Char), x ∈ dropTrailingWS l → x ∈ l := by
  intro l
  induction l with
  | nil => intro x hx; simpa [dropTrailingWS] using hx
  | cons a t ih =>
    intro x hx
    simp only [dropTrailingWS] at hx
    by_cases hr : (dropTrailingWS t).isEmpty = true
    · rw [if_pos hr] at hx
      by_cases ha : a.isWhitespace = true
      · rw [if_pos ha] at hx
        simp at hx
      · rw [if_neg ha] at hx
        simp at hx
        simp [hx]
    · rw [if_neg hr] at hx
      rcases List.mem_cons.1 hx with rfl | hx'
      · exact List.mem_cons_self _ _
      · exact List.mem_cons_of_mem _ (ih x hx')

theorem dtw_nil_iff : ∀ l : List Char,
    dropTrailingWS l = [] ↔ ∀ x ∈ l, x.isWhitespace = true := by
  intro l
  induction l with
  | nil => simp [dropTrailingWS]
  | cons a t ih =>
    simp only [dropTrailingWS]
    by_cases hr : (dropTrailingWS t).isEmpty = true
    · have ht0 : dropTrailingWS t = [] := by
        cases h' : dropTrailingWS t with
        | nil => rfl
        | cons y r => rw [h'] at hr; simp at hr
      have ht : ∀ x ∈ t, x.isWhitespace = true := ih.1 ht0
      rw [if_pos hr]
      by_cases ha : a.isWhitespace = true
      · rw [if_pos ha]
        constructor
        · intro _ x hx
          rcases List.mem_cons.1 hx with rfl | hx'
          · exact ha
          · exact ht x hx'
        · intro _; rfl
      · rw [if_neg ha]
        simp [ha]
    · have hne : dropTrailingWS t ≠ [] := by
        intro h'
        rw [h'] at hr
        simp at hr
      rw [if_neg hr]
      constructor
      · intro h'
        simp at h'
      · intro hall
        exact absurd (ih.2 fun x hx => hall x (List.mem_cons_of_mem _ hx)) hne

theorem dtw_head : ∀ (a : Char) (t : List Char),
    dropTrailingWS (a :: t) = [] ∨ ∃ r, dropTrailingWS (a :: t) = a :: r := by
  intro a t
  simp only [dropTrailingWS]
  by_cases hr : (dropTrailingWS t).isEmpty = true
  · rw [if_pos hr]
    by_cases ha : a.isWhitespace = true
    · rw [if_pos ha]
      exact Or.inl rfl
    · rw [if_neg ha]
      exact Or.inr ⟨[], rfl⟩
  · rw [if_neg hr]
    exact Or.inr ⟨_, rfl⟩

theorem dtw_noDoubles (c : Char) :
    ∀ l, noDoubles c l = true → noDoubles c (dropTrailingWS l) = true := by
  intro l
  induction l with
  | nil => intro _; rfl
  | cons a t ih =>
    intro h
    simp only [dropTrailingWS]
    by_cases hr : (dropTrailingWS t).isEmpty = true
    · rw [if_pos hr]
      by_cases ha : a.isWhitespace = true
      · rw [if_pos ha]; rfl
      · rw [if_neg ha]; rfl
    · rw [if_neg hr]
      have htl : noDoubles c (dropTrailingWS t) = true := ih (noDoubles_tail c a t h)
      cases t with
      | nil => simp [dropTrailingWS] at hr
      | cons b t' =>
        rcases dtw_head b t' with h0 | ⟨r, hr'⟩
        · rw [h0] at hr
          simp at hr
        · rw [hr']
          rw [hr'] at htl
          simp only [noDoubles, Bool.and_eq_true]
          refine ⟨?_, htl⟩
          simp only [noDoubles, Bool.and_eq_true] at h
          exact h.1

theorem dtw_idem : ∀ l : List Char,
    dropTrailingWS (dropTrailingWS l) = dropTrailingWS l := by
  intro l
  induction l with
  | nil => rfl
  | cons a t ih =>
    simp only [dropTrailingWS]
    by_cases hr : (dropTrailingWS t).isEmpty = true
    · rw [if_pos hr]
      by_cases ha : a.isWhitespace = true
      · rw [if_pos ha]; rfl
      · rw [if_neg ha]
        simp [dropTrailingWS, ha]
    · rw [if_neg hr]
      simp only [dropTrailingWS, ih]
      rw [if_neg hr]

theorem strip_head_not_ws : ∀ (l : List Char) (a : Char) (r : List Char),
    stripChars l = a :: r → a.isWhitespace = false := by
  intro l a r h
  unfold stripChars at h
  cases hX : l.dropWhile Char.isWhitespace with
  | nil =>
    rw [hX] at h
    simp [dropTrailingWS] at h
  | cons x0 X' =>
    rw [hX] at h
    rcases dtw_head x0 X' with h0 | ⟨r', hr'⟩
    · rw [h0] at h
      cases h
    · rw [hr'] at h
      injection h with h1 _
      rw [h1] at hX
      exact dropWhile_head_not _ l a X' hX

theorem strip_mem : ∀ (l : List Char) (x : Char), x ∈ stripChars l → x ∈ l := by
  intro l x hx
  exact dropWhile_mem _ l x (dtw_mem _ x hx)

theorem strip_noDoubles (c : Char) (l : List Char) (h : noDoubles c l = true) :
    noDoubles c (stripChars l) = true :=
  dtw_noDoubles c _ (dropWhile_noDoubles c _ l h)

theorem strip_nil_iff : ∀ l : List Char,
    stripChars l = [] ↔ ∀ x ∈ l, x.isWhitespace = true := by
  intro l
  unfold stripChars
  rw [dtw_nil_iff]
  constructor
  · intro h x hx
    rw [← List.takeWhile_append_dropWhile (p := Char.isWhitespace) (l := l)] at hx
    rcases List.mem_append.1 hx with h1 | h2
    · exact List.mem_takeWhile_imp h1
    · exact h x h2
  · intro h x hx
    exact h x (dropWhile_mem _ l x hx)

theorem strip_idem : ∀ l : List Char, stripChars (stripChars l) = stripChars l := by
  intro l
  cases hc : stripChars l with
  | nil => rfl
  | cons a r =>
    have ha : a.isWhitespace = false := strip_head_not_ws l a r hc
    show stripChars (a :: r) = a :: r
    unfold stripChars
    rw [List.dropWhile_cons, if_neg (by simp [ha])]
    have : dropTrailingWS (a :: r) = dropTrailingWS (stripChars l) := by rw [hc]
    rw [this]
    unfold stripChars
    rw [dtw_idem]
    conv_rhs => rw [← hc]
    rfl

/-! ### Splitting on and joining with newlines -/

theorem splitNL_cons_nl (rest : List Char) :
    splitNL ('\n' :: rest) = [] :: splitNL rest := by
  simp [splitNL, splitNLAux]

theorem splitNL_cons_ne (a : Char) (rest : List Char) (h : a ≠ '\n') :
    splitNL (a :: rest) = (a :: (splitNLAux rest).1) :: (splitNLAux rest).2 := by
  simp [splitNL, splitNLAux, h]

theorem joinNL_cons (h : List Char) (tl : List (List Char)) :
    joinNL (h :: tl) = h ++ (if tl.isEmpty then [] else '\n' :: joinNL tl) := by
  cases tl with
  | nil => simp [joinNL]
  | cons x xs => simp [joinNL]

theorem join_split : ∀ l : List Char, joinNL (splitNL l) = l := by
  intro l
  induction l with
  | nil => rfl
  | cons a rest ih =>
    by_cases ha : a = '\n'
    · subst ha
      rw [splitNL_cons_nl]
      have h1 : joinNL ([] :: splitNL rest) = [] ++ '\n' :: joinNL (splitNL rest) := rfl
      rw [h1, ih]
      rfl
    · rw [splitNL_cons_ne a rest ha, joinNL_cons]
      have ihe : joinNL ((splitNLAux rest).1 :: (splitNLAux rest).2) = rest := ih
      rw [joinNL_cons] at ihe
      rw [List.cons_append, ihe]

theorem splitNL_no_newline : ∀ (l : List Char) (x : List Char),
    x ∈ splitNL l → '\n' ∉ x := by
  intro l
  induction l with
  | nil =>
    intro x hx
    have : x = [] := by simpa [splitNL, splitNLAux] using hx
    simp [this]
  | cons a rest ih =>
    intro x hx
    by_cases ha : a = '\n'
    · subst ha
      rw [splitNL_cons_nl] at hx
      rcases List.mem_cons.1 hx with rfl | hx'
      · simp
      · exact ih x hx'
    · rw [splitNL_cons_ne a rest ha] at hx
      rcases List.mem_cons.1 hx with rfl | hx'
      · intro hmem
        rcases List.mem_cons.1 hmem with he | hm
        · exact ha he.symm
        · exact ih (splitNLAux rest).1 (List.mem_cons_self _ _) hm
      · exact ih x (List.mem_cons_of_mem _ hx')

theorem split_single : ∀ h : List Char, '\n' ∉ h → splitNL h = [h] := by
  intro h
  induction h with
  | nil => intro _; rfl
  | cons a h' ih =>
    intro hfree
    have ha : a ≠ '\n' := fun he => hfree (by rw [← he]; exact List.mem_cons_self a h')
    have h' := ih fun hm => hfree (List.mem_cons_of_mem _ hm)
    rw [splitNL_cons_ne a _ ha]
    have h'' : (splitNLAux _).1 :: (splitNLAux _).2 = [_] := h'
    injection h'' with e1 e2
    rw [e1, e2]

theorem split_append : ∀ (p m : List Char), '\n' ∉ p →
    splitNLAux (p ++ m) = (p ++ (splitNLAux m).1, (splitNLAux m).2) := by
  intro p
  induction p with
  | nil => intro m _; simp
  | cons a p' ih =>
    intro m hfree
    have ha : a ≠ '\n' := fun he => hfree (by rw [← he]; exact List.mem_cons_self a p')
    have hrec := ih m fun hm => hfree (List.mem_cons_of_mem _ hm)
    show splitNLAux (a :: (p' ++ m)) = _
    simp only [splitNLAux, if_neg ha, hrec, List.cons_append]

theorem split_join : ∀ (tl : List (List Char)) (h : List Char),
    (∀ x ∈ h :: tl, '\n' ∉ x) → splitNL (joinNL (h :: tl)) = h :: tl := by
  intro tl
  induction tl with
  | nil =>
    intro h hfree
    exact split_single h (hfree h (List.mem_cons_self _ _))
  | cons h2 tl' ih =>
    intro h hfree
    have hfh : '\n' ∉ h := hfree h (List.mem_cons_self _ _)
    have hrest : ∀ x ∈ h2 :: tl', '\n' ∉ x := fun x hx =>
      hfree x (List.mem_cons_of_mem _ hx)
    have hstep : joinNL (h :: h2 :: tl') = h ++ '\n' :: joinNL (h2 :: tl') := rfl
    rw [hstep]
    show (splitNLAux _).1 :: (splitNLAux _).2 = h :: h2 :: tl'
    rw [split_append h ('\n' :: joinNL (h2 :: tl')) hfh]
    have haux : splitNLAux ('\n' :: joinNL (h2 :: tl'))
        = ([], (splitNLAux (joinNL (h2 :: tl'))).1 :: (splitNLAux (joinNL (h2 :: tl'))).2) := by
      simp [splitNLAux]
    rw [haux]
    have ihe : (splitNLAux (joinNL (h2 :: tl'))).1 :: (splitNLAux (joinNL (h2 :: tl'))).2
        = h2 :: tl' := ih h2 hrest
    simp only [List.append_nil]
    rw [ihe]

/-! ### Effect of the newline squeeze on the line structure -/

/-- Collapsing of empty lines after the head: an empty line is dropped unless
it is the last line. -/
def lcTail : List (List Char) → List (List Char)
  | [] => []
  | y :: r => if y = [] ∧ r ≠ [] then lcTail r else y :: lcTail r

/-- The line-level effect of `squeeze '\n'`: the head line is kept, and each
empty non-final line after it is dropped. -/
def lineCollapse : List (List Char) → List (List Char)
  | [] => []
  | x :: tl => x :: lcTail tl

/-- Every line after the head is non-empty, except possibly the last. -/
def midOK : List (List Char) → Bool
  | [] => true
  | [_] => true
  | _ :: y :: r => decide (y ≠ [] ∨ r = []) && midOK (y :: r)

theorem lcTail_midOK : ∀ (tl : List (List Char)) (x : List Char),
    midOK (x :: lcTail tl) = true := by
  intro tl
  induction tl with
  | nil => intro x; rfl
  | cons y r ih =>
    intro x
    by_cases h : y = [] ∧ r ≠ []
    · rw [show lcTail (y :: r) = lcTail r by simp [lcTail, h]]
      exact ih x
    · rw [show lcTail (y :: r) = y :: lcTail r by simp [lcTail, h]]
      show midOK (x :: y :: lcTail r) = true
      simp only [midOK, Bool.and_eq_true]
      refine ⟨?_, ih y⟩
      rcases not_and_or.1 h with h' | h'
      · simp [h']
      · have : r = [] := not_not.1 h'
        simp [this, lcTail]

theorem lineCollapse_midOK (ls : List (List Char)) :
    midOK (lineCollapse ls) = true := by
  cases ls with
  | nil => rfl
  | cons x tl => exact lcTail_midOK tl x

theorem lcTail_mem : ∀ (tl : List (List Char)) (x : List Char),
    x ∈ lcTail tl → x ∈ tl := by
  intro tl
  induction tl with
  | nil => intro x hx; simpa [lcTail] using hx
  | cons y r ih =>
    intro x hx
    by_cases h : y = [] ∧ r ≠ []
    · rw [show lcTail (y :: r) = lcTail r by simp [lcTail, h]] at hx
      exact List.mem_cons_of_mem _ (ih x hx)
    · rw [show lcTail (y :: r) = y :: lcTail r by simp [lcTail, h]] at hx
      rcases List.mem_cons.1 hx with rfl | hx'
      · exact List.mem_cons_self _ _
      · exact List.mem_cons_of_mem _ (ih x hx')

theorem lineCollapse_mem (ls : List (List Char)) (x : List Char)
    (hx : x ∈ lineCollapse ls) : x ∈ ls := by
  cases ls with
  | nil => simpa [lineCollapse] using hx
  | cons y tl =>
    rcases List.mem_cons.1 hx with rfl | hx'
    · exact List.mem_cons_self _ _
    · exact List.mem_cons_of_mem _ (lcTail_mem tl x hx')

/-- Squeezing a non-newline character commutes with splitting on newlines:
it acts line by line. -/
theorem split_squeeze_commute (c : Char) (hc : c ≠ '\n') :
    ∀ m : List Char, splitNL (squeeze c m) = (splitNL m).map (squeeze c) := by
  intro m
  induction m with
  | nil => rfl
  | cons a rest ih =>
    have ihc := ih
    simp only [splitNL, List.map_cons] at ihc
    have ih1 : (splitNLAux (squeeze c rest)).1 = squeeze c (splitNLAux rest).1 := by
      injection ihc
    have ih2 : (splitNLAux (squeeze c rest)).2
        = ((splitNLAux rest).2).map (squeeze c) := by
      injection ihc
    by_cases ha : a = '\n'
    · subst ha
      rw [squeeze_cons_ne c '\n' rest (Ne.symm hc), splitNL_cons_nl, splitNL_cons_nl,
        List.map_cons]
      exact congrArg _ ih
    · cases rest with
      | nil =>
        rw [show squeeze c [a] = [a] from rfl, splitNL_cons_ne a [] ha, List.map_cons]
        rfl
      | cons b t =>
        by_cases hab : a = c ∧ b = c
        · have hbnl : b ≠ '\n' := by rw [hab.2]; exact hc
          rw [show squeeze c (a :: b :: t) = squeeze c (b :: t) by simp [squeeze, hab]]
          rw [ih, splitNL_cons_ne a (b :: t) ha, List.map_cons]
          rw [show splitNL (b :: t) = (b :: (splitNLAux t).1) :: (splitNLAux t).2 from
            splitNL_cons_ne b t hbnl, List.map_cons]
          have e1 : (splitNLAux (b :: t)).1 = b :: (splitNLAux t).1 := by
            simp [splitNLAux, hbnl]
          have e2 : (splitNLAux (b :: t)).2 = (splitNLAux t).2 := by
            simp [splitNLAux, hbnl]
          rw [e1, e2]
          congr 1
          rw [show squeeze c (a :: b :: (splitNLAux t).1)
              = squeeze c (b :: (splitNLAux t).1) by simp [squeeze, hab]]
        · rw [show squeeze c (a :: b :: t) = a :: squeeze c (b :: t) by simp [squeeze, hab]]
          rw [splitNL_cons_ne a _ ha, ih1, ih2, splitNL_cons_ne a (b :: t) ha,
            List.map_cons]
          congr 1
          by_cases hb : b = '\n'
          · subst hb
            have e1 : (splitNLAux ('\n' :: t)).1 = [] := by simp [splitNLAux]
            rw [e1]
            rfl
          · have e1 : (splitNLAux (b :: t)).1 = b :: (splitNLAux t).1 := by
              simp [splitNLAux, hb]
            rw [e1]
            rw [show squeeze c (a :: b :: (splitNLAux t).1)
                = a :: squeeze c (b :: (splitNLAux t).1) by simp [squeeze, hab]]

/-- Squeezing newlines is line collapapsing: the split of the
newline-squeezed text is the collapsed split of the text. -/
theorem split_squeeze_nl : ∀ m : List Char,
    splitNL (squeeze '\n' m) = lineCollapse (splitNL m) := by
  intro m
  induction m with
  | nil => rfl
  | cons a rest ih =>
    by_cases ha : a = '\n'
    · subst ha
      cases rest with
      | nil => rfl
      | cons b t =>
        by_cases hb : b = '\n'
        · subst hb
          rw [show squeeze '\n' ('\n' :: '\n' :: t) = squeeze '\n' ('\n' :: t) by
            simp [squeeze]]
          rw [ih, splitNL_cons_nl, splitNL_cons_nl, splitNL_cons_nl]
          show [] :: lcTail (splitNL t) = [] :: lcTail ([] :: splitNL t)
          congr 1
        · rw [show squeeze '\n' ('\n' :: b :: t) = '\n' :: squeeze '\n' (b :: t) by
            simp [squeeze, hb]]
          rw [splitNL_cons_nl, ih, splitNL_cons_nl, splitNL_cons_ne b t hb]
          show [] :: lineCollapse ((b :: (splitNLAux t).1) :: (splitNLAux t).2)
              = lineCollapse ([] :: (b :: (splitNLAux t).1) :: (splitNLAux t).2)
          simp [lineCollapse, lcTail]
    · rw [squeeze_cons_ne '\n' a rest ha, splitNL_cons_ne a _ ha]
      have ihc := ih
      simp only [splitNL, lineCollapse] at ihc
      have ih1 : (splitNLAux (squeeze '\n' rest)).1 = (splitNLAux rest).1 := by
        injection ihc
      have ih2 : (splitNLAux (squeeze '\n' rest)).2 = lcTail (splitNLAux rest).2 := by
        injection ihc
      rw [ih1, ih2, splitNL_cons_ne a rest ha]
      rfl

/-- Stripping the lines preserves the `midOK` structure provided blank lines
were already empty. -/
theorem midOK_map_strip : ∀ ls : List (List Char), midOK ls = true →
    (∀ e ∈ ls, stripChars e = [] → e = []) →
    midOK (ls.map stripChars) = true := by
  intro ls
  induction ls with
  | nil => intro _ _; rfl
  | cons x tl ih =>
    intro hmid hP
    cases tl with
    | nil => rfl
    | cons y r =>
      simp only [midOK, Bool.and_eq_true, decide_eq_true_eq] at hmid
      have ihr := ih hmid.2 fun e he hs => hP e (List.mem_cons_of_mem _ he) hs
      show midOK (stripChars x :: stripChars y :: (r.map stripChars)) = true
      simp only [midOK, Bool.and_eq_true, decide_eq_true_eq]
      constructor
      · rcases hmid.1 with hy | hr
        · left
          intro hs
          exact hy (hP y (List.mem_cons_of_mem _ (List.mem_cons_self _ _)) hs)
        · right
          rw [hr]
          rfl
      · exact ihr

/-! ### `noDoubles` across lines and joins -/

theorem noDoubles_split (d : Char) : ∀ m : List Char, noDoubles d m = true →
    ∀ x ∈ splitNL m, noDoubles d x = true := by
  intro m
  induction m with
  | nil =>
    intro _ x hx
    have hx0 : x = [] := by simpa [splitNL, splitNLAux] using hx
    rw [hx0]
    rfl
  | cons a rest ih =>
    intro h x hx
    have htl : noDoubles d rest = true := noDoubles_tail d a rest h
    by_cases ha : a = '\n'
    · subst ha
      rw [splitNL_cons_nl] at hx
      rcases List.mem_cons.1 hx with rfl | hx'
      · rfl
      · exact ih htl x hx'
    · rw [splitNL_cons_ne a rest ha] at hx
      have hshape : (splitNLAux rest).1 = []
          ∨ ∃ b t, rest = b :: t ∧ b ≠ '\n'
              ∧ (splitNLAux rest).1 = b :: (splitNLAux t).1 := by
        cases rest with
        | nil => exact Or.inl rfl
        | cons b t =>
          by_cases hb : b = '\n'
          · exact Or.inl (by simp [splitNLAux, hb])
          · exact Or.inr ⟨b, t, rfl, hb, by simp [splitNLAux, hb]⟩
      rcases List.mem_cons.1 hx with rfl | hx'
      · have hhead : noDoubles d ((splitNLAux rest).1) = true :=
          ih htl (splitNLAux rest).1 (List.mem_cons_self _ _)
        rcases hshape with h0 | ⟨b, t, hbt, hb, hcons⟩
        · rw [h0]
          rfl
        · rw [hcons]
          show noDoubles d (a :: b :: (splitNLAux t).1) = true
          simp only [noDoubles, Bool.and_eq_true]
          constructor
          · rw [hbt] at h
            simp only [noDoubles, Bool.and_eq_true] at h
            exact h.1
          · rw [hcons] at hhead
            exact hhead
      · exact ih htl x (List.mem_cons_of_mem _ hx')

theorem noDoubles_cons_head (c x : Char) (M : List Char)
    (hM : noDoubles c M = true)
    (hhead : ∀ y, M.head? = some y → ¬(x = c ∧ y = c)) :
    noDoubles c (x :: M) = true := by
  cases M with
  | nil => rfl
  | cons m0 M' =>
    simp only [noDoubles, Bool.and_eq_true]
    exact ⟨by simp [hhead m0 rfl], hM⟩

/-- Joining lines each free of doubled `d` (with `d` not the newline) has no
doubled `d`. -/
theorem joinNL_noDoubles (d : Char) (hd : d ≠ '\n') :
    ∀ ls : List (List Char), (∀ x ∈ ls, noDoubles d x = true) →
      noDoubles d (joinNL ls) = true := by
  intro ls
  induction ls with
  | nil => intro _; rfl
  | cons l tl ih =>
    intro h
    cases tl with
    | nil => exact h l (List.mem_cons_self _ _)
    | cons l2 ls' =>
      show noDoubles d (l ++ '\n' :: joinNL (l2 :: ls')) = true
      apply noDoubles_append_sep d '\n' (Ne.symm hd)
      · rw [noDoubles_cons_of_ne d '\n' _ (Ne.symm hd)]
        exact ih fun y hy => h y (List.mem_cons_of_mem _ hy)
      · exact h l (List.mem_cons_self _ _)

/-- Joining newline-free lines, none of which is an empty interior line, has
no doubled newline. -/
theorem joinNL_noDoubles_nl :
    ∀ ls : List (List Char), (∀ x ∈ ls, '\n' ∉ x) → midOK ls = true →
      noDoubles '\n' (joinNL ls) = true := by
  intro ls
  induction ls with
  | nil => intro _ _; rfl
  | cons l tl ih =>
    intro hfree hmid
    cases tl with
    | nil => exact noDoubles_of_not_mem '\n' l (hfree l (List.mem_cons_self _ _))
    | cons l2 ls' =>
      show noDoubles '\n' (l ++ '\n' :: joinNL (l2 :: ls')) = true
      simp only [midOK, Bool.and_eq_true, decide_eq_true_eq] at hmid
      have hM : noDoubles '\n' (joinNL (l2 :: ls')) = true :=
        ih (fun y hy => hfree y (List.mem_cons_of_mem _ hy)) hmid.2
      apply noDoubles_append_mem '\n' '\n' _ ?_ l (hfree l (List.mem_cons_self _ _))
      apply noDoubles_cons_head '\n' '\n' _ hM
      intro y hy
      cases l2 with
      | nil =>
        rcases hmid.1 with h0 | h0
        · exact absurd rfl h0
        · rw [h0] at hy
          simp [joinNL] at hy
      | cons ch l2' =>
        have hch : ch ≠ '\n' := by
          intro he
          exact hfree (ch :: l2') (List.mem_cons_of_mem _ (List.mem_cons_self _ _))
            (by rw [he]; exact List.mem_cons_self _ _)
        rw [joinNL_cons, List.cons_append] at hy
        injection hy with hy
        rw [← hy]
        intro hand
        exact hch hand.2

/-- Mapping a function that fixes every element is the identity. -/
theorem map_self_of_fix {α : Type} (f : α → α) :
    ∀ ls : List α, (∀ x ∈ ls, f x = x) → ls.map f = ls := by
  intro ls
  induction ls with
  | nil => intro _; rfl
  | cons a tl ih =>
    intro h
    rw [List.map_cons, h a (List.mem_cons_self _ _),
      ih fun x hx => h x (List.mem_cons_of_mem _ hx)]

/-! ### C4: the amended idempotence and its proof -/

/-- Normalization fixes every already-normal text: no doubled spaces, no
doubled newlines, every line stripped. -/
theorem normalize_fixpoint (g : List Char)
    (h1 : noDoubles ' ' g = true) (h2 : noDoubles '\n' g = true)
    (h3 : ∀ x ∈ splitNL g, stripChars x = x) :
    normalizeChars g = g := by
  unfold normalizeChars
  rw [squeeze_eq_self ' ' g h1, squeeze_eq_self '\n' g h2,
    map_self_of_fix stripChars (splitNL g) h3]
  exact join_split g

/-- On an input whose lines are each empty or non-blank, the output of the
normalizer is normal: no doubled spaces or newlines, all lines stripped. -/
theorem normalize_good (l : List Char)
    (H : ∀ e ∈ splitNL l, e = [] ∨ ¬(∀ x ∈ e, x.isWhitespace = true)) :
    noDoubles ' ' (normalizeChars l) = true
    ∧ noDoubles '\n' (normalizeChars l) = true
    ∧ ∀ x ∈ splitNL (normalizeChars l), stripChars x = x := by
  have hsplitw : splitNL (squeeze ' ' l) = (splitNL l).map (squeeze ' ') :=
    split_squeeze_commute ' ' (by decide) l
  have hsplitm : splitNL (squeeze '\n' (squeeze ' ' l))
      = lineCollapse (splitNL (squeeze ' ' l)) := split_squeeze_nl _
  -- every line of the squeezed text is the space-squeeze of a line of `l`
  have hF1 : ∀ e2 ∈ splitNL (squeeze '\n' (squeeze ' ' l)),
      ∃ e1 ∈ splitNL l, e2 = squeeze ' ' e1 := by
    intro e2 he2
    rw [hsplitm] at he2
    have : e2 ∈ splitNL (squeeze ' ' l) := lineCollapse_mem _ _ he2
    rw [hsplitw] at this
    obtain ⟨e1, he1, heq⟩ := List.mem_map.1 this
    exact ⟨e1, he1, heq.symm⟩
  -- the lines of the output
  have hF2 : ∀ x ∈ (splitNL (squeeze '\n' (squeeze ' ' l))).map stripChars,
      '\n' ∉ x := by
    intro x hx hmem
    obtain ⟨e2, he2, heq⟩ := List.mem_map.1 hx
    rw [← heq] at hmem
    exact splitNL_no_newline _ e2 he2 (strip_mem e2 '\n' hmem)
  have hF3 : ∀ x ∈ (splitNL (squeeze '\n' (squeeze ' ' l))).map stripChars,
      noDoubles ' ' x = true := by
    intro x hx
    obtain ⟨e2, he2, heq⟩ := List.mem_map.1 hx
    obtain ⟨e1, _, he⟩ := hF1 e2 he2
    rw [← heq, he]
    exact strip_noDoubles ' ' _ (noDoubles_squeeze ' ' e1)
  have hF4 : ∀ e2 ∈ splitNL (squeeze '\n' (squeeze ' ' l)),
      stripChars e2 = [] → e2 = [] := by
    intro e2 he2 hstrip
    obtain ⟨e1, he1, he⟩ := hF1 e2 he2
    have hws2 : ∀ x ∈ e2, x.isWhitespace = true := (strip_nil_iff e2).1 hstrip
    rw [he] at hws2
    have hws1 : ∀ x ∈ e1, x.isWhitespace = true :=
      squeeze_all_ws ' ' (by decide) e1 hws2
    rcases H e1 he1 with h0 | h0
    · rw [he, h0]
      rfl
    · exact absurd hws1 h0
  have hF5 : midOK ((splitNL (squeeze '\n' (squeeze ' ' l))).map stripChars) = true := by
    apply midOK_map_strip _ _ hF4
    rw [hsplitm]
    exact lineCollapse_midOK _
  have hF6 : splitNL (normalizeChars l)
      = (splitNL (squeeze '\n' (squeeze ' ' l))).map stripChars := by
    show splitNL (joinNL _) = _
    have hcons : (splitNL (squeeze '\n' (squeeze ' ' l))).map stripChars
        = stripChars (splitNLAux (squeeze '\n' (squeeze ' ' l))).1
            :: ((splitNLAux (squeeze '\n' (squeeze ' ' l))).2).map stripChars := rfl
    rw [hcons]
    apply split_join
    rw [← hcons]
    exact hF2
  refine ⟨?_, ?_, ?_⟩
  · exact joinNL_noDoubles ' ' (by decide) _ hF3
  · exact joinNL_noDoubles_nl _ hF2 hF5
  · intro x hx
    rw [hF6] at hx
    obtain ⟨e2, _, heq⟩ := List.mem_map.1 hx
    rw [← heq]
    exact strip_idem e2

/-- C4 (amended): whitespace normalization is idempotent on every input text
in which each newline-separated line is either empty or contains a
non-whitespace character.  (The original unrestricted claim fails: a
whitespace-only non-empty line is stripped to an empty line after the newline
collapse has already run, and the second pass then collapses the two newlines
around it — see the counterexample.) -/
theorem normalize_whitespace_idempotent (s : String)
    (H : ∀ e ∈ splitNL s.data, e = [] ∨ ¬(∀ x ∈ e, x.isWhitespace = true)) :
    normalize_whitespace_text (normalize_whitespace_text s)
      = normalize_whitespace_text s := by
  unfold normalize_whitespace_text
  obtain ⟨g1, g2, g3⟩ := normalize_good s.data H
  show (⟨normalizeChars (⟨normalizeChars s.data⟩ : String).data⟩ : String) = _
  congr 1
  exact normalize_fixpoint _ g1 g2 g3

/-- Witness for C4 (amended) on `"ab \ncd"`, whose lines are non-blank. -/
theorem normalize_whitespace_idempotent_witness :
    (∀ e ∈ splitNL ("ab \ncd".data), e = [] ∨ ¬(∀ x ∈ e, x.isWhitespace = true))
    ∧ normalize_whitespace_text (normalize_whitespace_text "ab \ncd")
        = normalize_whitespace_text "ab \ncd" :=
  ⟨by decide, normalize_whitespace_idempotent "ab \ncd" (by decide)⟩

end Therapy
